import Mathlib

/-!
Verification of the smart-sort core of the page-name-exporter repository.

The embedding models the module src/utils/smartSort.ts.  JavaScript strings
are modelled as lists of UTF-16 code units (`Str := List Nat`), because the
source inspects strings code unit by code unit (`name.trim()`, `trimmed[0]`,
regular expressions without the u flag, `item.endsWith(' ' + p)`).

`localeCompare` is modelled as lexicographic comparison on UTF-16 code units
(`lexLe`).  The comparator only matters inside `Array.prototype.sort`, and a
strict total order yields the unique sorted permutation, so the model matches
the JavaScript behaviour whenever the locale order agrees with code-unit
order; every concrete example below only compares ASCII strings where the
two orders agree.
-/

/-- JavaScript strings as lists of UTF-16 code units. -/
abbrev Str := List Nat

/-- Code units of an ASCII/BMP Lean string literal (one code unit per char). -/
def strCU (s : String) : Str := s.data.map Char.toNat

/-- WhiteSpace and LineTerminator code units removed by
`String.prototype.trim` (ECMA-262). -/
def isJsWhitespace (c : Nat) : Bool :=
  c == 0x9 || c == 0xA || c == 0xB || c == 0xC || c == 0xD || c == 0x20 ||
  c == 0xA0 || c == 0x1680 || decide (0x2000 ≤ c ∧ c ≤ 0x200A) ||
  c == 0x2028 || c == 0x2029 || c == 0x202F || c == 0x205F ||
  c == 0x3000 || c == 0xFEFF

/-- Model of `name.trim()`: drop whitespace code units from both ends. -/
def jsTrim (s : Str) : Str :=
  ((s.dropWhile isJsWhitespace).reverse.dropWhile isJsWhitespace).reverse

/-- smartSort.ts line 16: `/^[-]+$/.test(name.trim())` — the trimmed string
is nonempty and consists only of hyphens (0x2D). -/
def isDivider (name : Str) : Bool :=
  !(jsTrim name).isEmpty && (jsTrim name).all (· == 0x2D)

/-- smartSort.ts line 31: the emoji regex with single-code-unit
alternatives U+00A9, U+00AE and the class U+2000-U+3300, and the
two-code-unit alternatives U+D83C/U+D83D/U+D83E followed by a unit in
U+D000-U+DFFF, tried at every position of the subject string (no u flag, so
the subject is a sequence of UTF-16 code units and a surrogate-pair
alternative needs two consecutive code units to match). -/
def emojiRegexTest : Str → Bool
  | [] => false
  | c :: rest =>
    (c == 0xA9 || c == 0xAE || decide (0x2000 ≤ c ∧ c ≤ 0x3300)) ||
    ((c == 0xD83C || c == 0xD83D || c == 0xD83E) &&
      !rest.isEmpty && decide (0xD000 ≤ rest.headD 0 ∧ rest.headD 0 ≤ 0xDFFF)) ||
    emojiRegexTest rest

/-- smartSort.ts line 35: `/[A-Z]/.test(trimmed)`. -/
def hasUpperLatin (s : Str) : Bool := s.any (fun c => decide (0x41 ≤ c ∧ c ≤ 0x5A))

/-- smartSort.ts line 36: `/[a-z]/.test(trimmed)`. -/
def hasLowerLatin (s : Str) : Bool := s.any (fun c => decide (0x61 ≤ c ∧ c ≤ 0x7A))

/-- smartSort.ts lines 20-40 (`isStickyHeader`).  Note that the emoji regex
is applied to `trimmed[0]`, which in JavaScript is the *first code unit* of
the trimmed string (a string of length 1), modelled by `trimmed.take 1`.
The unused local `isEmoji` (line 29) is dead code and is not modelled. -/
def isStickyHeader (name : Str) : Bool :=
  let trimmed := jsTrim name
  if trimmed.isEmpty then false
  else if emojiRegexTest (trimmed.take 1) then true
  else if hasUpperLatin trimmed && !hasLowerLatin trimmed then true
  else false

/-- smartSort.ts lines 42-44. -/
def isSequenceBreaker (name : Str) : Bool := isDivider name || isStickyHeader name

/-- Code-unit lexicographic order on strings, the model of
`a.localeCompare(b) <= 0` used by the three `sort` calls in smartSort.ts. -/
def lexLe : Str → Str → Bool
  | [], _ => true
  | _ :: _, [] => false
  | a :: as, b :: bs => if a < b then true else if b < a then false else lexLe as bs

/-- The sorting relation as a Prop. -/
def lexLeP (a b : Str) : Prop := lexLe a b = true

instance : DecidableRel lexLeP := fun a b => instDecidableEqBool (lexLe a b) true

/-- Model of `arr.sort((a, b) => a.localeCompare(b))`: the sorted permutation of the
array.  A stable sort and the unique sorted permutation coincide because
`lexLeP` is a total order. -/
def jsSort (l : List Str) : List Str := List.insertionSort lexLeP l

/-- Distinct elements of a list in first-occurrence order: iteration order of
the JavaScript `Set` built by `new Set(items)` (smartSort.ts line 120). -/
def dedupAux (seen : List Str) : List Str → List Str
  | [] => []
  | x :: xs => if x ∈ seen then dedupAux seen xs else x :: dedupAux (x :: seen) xs

/-- Spread of `new Set(items)` in iteration order. -/
def dedupFirst (l : List Str) : List Str := dedupAux [] l

/-- One iteration of the inner loop of smartSort.ts lines 136-146: skip
`p === item`, and when `item.endsWith(' ' + p)` keep the shorter of `p` and
the best parent so far. -/
def candidateStep (item : Str) (best : Option Str) (p : Str) : Option Str :=
  if p = item then best
  else if (0x20 :: p) <:+ item then
    match best with
    | none => some p
    | some b => if p.length < b.length then some p else some b
  else best

/-- smartSort.ts lines 134-146: the `bestParent` found for `item` after
scanning all potential parents. -/
def bestParentFor (pps : List Str) (item : Str) : Option Str :=
  pps.foldl (candidateStep item) none

/-- The `relationships` map (child value → parent value); entries exist
exactly for items with a best parent (smartSort.ts lines 148-151). -/
def relOf (items : List Str) (item : Str) : Option Str :=
  bestParentFor (dedupFirst items) item

/-- The `parents` set (smartSort.ts line 150): all values added as some
item's best parent; list membership models `parents.has`. -/
def parentsOf (items : List Str) : List Str := items.filterMap (relOf items)

/-- The `roots` array (smartSort.ts lines 162-173): items that are parents,
in first-occurrence order, deduplicated by the `roots.includes` guard. -/
def rootsOf (items : List Str) : List Str :=
  dedupFirst (items.filter (fun i => decide (i ∈ parentsOf items)))

/-- The `parentMap` entry for parent `p` (smartSort.ts lines 174-178): the
occurrences of non-parent items whose relationship points to `p`. -/
def childrenOf (items : List Str) (p : Str) : List Str :=
  items.filter (fun i => decide (i ∉ parentsOf items ∧ relOf items i = some p))

/-- The `orphans` array (smartSort.ts lines 179-182). -/
def orphansOf (items : List Str) : List Str :=
  items.filter (fun i => decide (i ∉ parentsOf items ∧ relOf items i = none))

/-- smartSort.ts lines 111-224 (`smartSortRegular`): sort roots and orphans,
merge and sort them as the top level, and after each parent emit its
sorted children. -/
def smartSortRegular (items : List Str) : List Str :=
  (jsSort (jsSort (rootsOf items) ++ jsSort (orphansOf items))).flatMap
    (fun i => i :: (if i ∈ parentsOf items then jsSort (childrenOf items i) else []))

/-- smartSort.ts lines 87-109 (`sortSection`): sticky items keep their
original relative order at the top; the rest are smart-sorted. -/
def sortSection (items : List Str) : List Str :=
  items.filter isStickyHeader ++ smartSortRegular (items.filter (fun i => !isStickyHeader i))

/-- One iteration of the loop in smartSort.ts lines 62-81: a breaker flushes
the accumulated section and starts the new section; every name is appended
to the current section. -/
def flushStep (acc : List Str × List Str) (name : Str) : List Str × List Str :=
  if isSequenceBreaker name then
    (acc.1 ++ (if acc.2.isEmpty then [] else sortSection acc.2), [name])
  else (acc.1, acc.2 ++ [name])

/-- smartSort.ts lines 46-85 (`sortPagesSmartly`): scan, flushing on
breakers, then flush the final section. -/
def sortPagesSmartly (names : List Str) : List Str :=
  let fin := names.foldl flushStep ([], [])
  fin.1 ++ (if fin.2.isEmpty then [] else sortSection fin.2)

/-- The list of sections that `sortPagesSmartly` flushes, in flush order
(derived notion used to state segmentation properties; the bridge lemma
`sortPagesSmartly_eq_segments` ties it to `sortPagesSmartly`). -/
def segmentsAux (cur : List Str) : List Str → List (List Str)
  | [] => if cur.isEmpty then [] else [cur]
  | n :: ns =>
    if isSequenceBreaker n then
      (if cur.isEmpty then [] else [cur]) ++ segmentsAux [n] ns
    else segmentsAux (cur ++ [n]) ns

/-- The segments of an input, in order. -/
def segments (names : List Str) : List (List Str) := segmentsAux [] names

/-- The label consisting of the surrogate pair U+D83D U+DD25, i.e. the fire
emoji U+1F525 as a JavaScript string of two code units. -/
def fireLabel : Str := [0xD83D, 0xDD25]

/-- The candidate-parent test of smartSort.ts line 137-139 as a predicate:
`p` is a distinct item and `item` ends with a space followed by `p`. -/
def IsCand (item p : Str) : Prop := p ≠ item ∧ (0x20 :: p) <:+ item

instance (item p : Str) : Decidable (IsCand item p) := by
  unfold IsCand; infer_instance

/-- All elements after the first are non-breakers (shape of every flushed
section: only the breaker that opened a section can be a breaker). -/
def TailOK (seg : List Str) : Prop := ∀ x ∈ seg.drop 1, isSequenceBreaker x = false

/-- No element is a breaker. -/
def BreakerFree (l : List Str) : Prop := ∀ x ∈ l, isSequenceBreaker x = false

/-- A nonempty section opened by a breaker, followed by non-breakers. -/
def BreakerHeaded (seg : List Str) : Prop :=
  ∃ b t, seg = b :: t ∧ isSequenceBreaker b = true ∧ BreakerFree t

/-- No element is a divider. -/
def DividerFree (l : List Str) : Prop := ∀ x ∈ l, isDivider x = false

instance (l : List Str) : Decidable (DividerFree l) := by
  unfold DividerFree; infer_instance

instance (l : List Str) : Decidable (BreakerFree l) := by
  unfold BreakerFree; infer_instance

/-- Occurrence count of a value in a list (used to state multiset facts
without fixing a BEq instance). -/
def countv (v : Str) (l : List Str) : Nat := l.countP (fun x => decide (x = v))

instance : IsTotal Str lexLeP where
  total a b := by
    induction a generalizing b with
    | nil => exact Or.inl rfl
    | cons x xs ih =>
      cases b with
      | nil => exact Or.inr rfl
      | cons y ys =>
        by_cases h1 : x < y
        · exact Or.inl (by simp [lexLeP, lexLe, h1])
        · by_cases h2 : y < x
          · exact Or.inr (by simp [lexLeP, lexLe, h2, h1])
          · have hxy : x = y := by omega
            subst hxy
            rcases ih ys with h | h
            · refine Or.inl ?_
              simp only [lexLeP, lexLe, lt_irrefl, if_false]
              exact h
            · refine Or.inr ?_
              simp only [lexLeP, lexLe, lt_irrefl, if_false]
              exact h

instance : IsTrans Str lexLeP where
  trans a b c hab hbc := by
    induction a generalizing b c with
    | nil => rfl
    | cons x xs ih =>
      cases b with
      | nil => simp [lexLeP, lexLe] at hab
      | cons y ys =>
        cases c with
        | nil => simp [lexLeP, lexLe] at hbc
        | cons z zs =>
          simp only [lexLeP, lexLe] at hab hbc ⊢
          by_cases hxy : x < y
          · by_cases hyz : y < z
            · simp [show x < z by omega]
            · by_cases hzy : z < y
              · simp [hyz, hzy] at hbc
              · have : y = z := by omega
                subst this
                simp [hxy]
          · by_cases hyx : y < x
            · simp [hxy, hyx] at hab
            · have hxyeq : x = y := by omega
              subst hxyeq
              simp only [hxy, if_neg, lt_irrefl, if_false] at hab
              by_cases hxz : x < z
              · simp [hxz]
              · by_cases hzx : z < x
                · simp [hxz, hzx] at hbc
                · have : x = z := by omega
                  subst this
                  simp only [lt_irrefl, if_false] at hbc ⊢
                  exact ih ys zs hab hbc

instance : IsAntisymm Str lexLeP where
  antisymm a b hab hba := by
    induction a generalizing b with
    | nil =>
      cases b with
      | nil => rfl
      | cons y ys => simp [lexLeP, lexLe] at hba
    | cons x xs ih =>
      cases b with
      | nil => simp [lexLeP, lexLe] at hab
      | cons y ys =>
        simp only [lexLeP, lexLe] at hab hba
        by_cases hxy : x < y
        · simp [show ¬ y < x by omega, hxy] at hba
        · by_cases hyx : y < x
          · simp [hxy, hyx] at hab
          · have hxyeq : x = y := by omega
            subst hxyeq
            simp only [lt_irrefl, if_false] at hab hba
            rw [ih ys hab hba]

/-! Helper lemmas about counting, sorting and deduplication. -/

theorem countv_nil (v : Str) : countv v [] = 0 := rfl

theorem countv_cons (v x : Str) (l : List Str) :
    countv v (x :: l) = countv v l + (if x = v then 1 else 0) := by
  simp [countv, List.countP_cons]

theorem countv_append (v : Str) (l1 l2 : List Str) :
    countv v (l1 ++ l2) = countv v l1 + countv v l2 := by
  simp [countv, List.countP_append]

theorem countv_eq_zero {v : Str} {l : List Str} : countv v l = 0 ↔ v ∉ l := by
  unfold countv
  rw [List.countP_eq_zero]
  constructor
  · intro h hv
    have hx := h v hv
    simp at hx
  · intro h a ha
    simp only [decide_eq_true_eq]
    rintro rfl
    exact h ha

theorem countv_pos {v : Str} {l : List Str} : 0 < countv v l ↔ v ∈ l := by
  unfold countv
  rw [List.countP_pos_iff]
  constructor
  · rintro ⟨a, ha, hd⟩
    have hav : a = v := by simpa using hd
    exact hav ▸ ha
  · intro h; exact ⟨v, h, by simp⟩

theorem countv_perm {l1 l2 : List Str} (h : List.Perm l1 l2) (v : Str) :
    countv v l1 = countv v l2 := h.countP_eq _

theorem perm_of_countv {l1 l2 : List Str} (h : ∀ v, countv v l1 = countv v l2) :
    List.Perm l1 l2 := by
  refine List.perm_iff_count.mpr (fun a => ?_)
  exact h a

theorem countv_filter (v : Str) (f : Str → Bool) (l : List Str) :
    countv v (l.filter f) = if f v then countv v l else 0 := by
  induction l with
  | nil => simp [countv]
  | cons x xs ih =>
    by_cases hx : f x
    · rw [List.filter_cons_of_pos hx, countv_cons, ih, countv_cons]
      by_cases hxv : x = v
      · subst hxv; simp [hx]
      · simp [hxv]
    · rw [List.filter_cons_of_neg hx, ih, countv_cons]
      by_cases hxv : x = v
      · subst hxv; simp [hx]
      · simp [hxv]

theorem countv_le_of_sublist {l1 l2 : List Str} (h : l1.Sublist l2) (v : Str) :
    countv v l1 ≤ countv v l2 := h.countP_le _

theorem countv_eq_one_of_nodup {v : Str} {l : List Str} (hn : l.Nodup) (hm : v ∈ l) :
    countv v l = 1 := by
  induction l with
  | nil => cases hm
  | cons x xs ih =>
    rw [countv_cons]
    rcases List.mem_cons.mp hm with rfl | hm2
    · rw [if_pos rfl]
      have : v ∉ xs := (List.nodup_cons.mp hn).1
      rw [countv_eq_zero.mpr this]
    · have hx : x ≠ v := by
        rintro rfl; exact (List.nodup_cons.mp hn).1 hm2
      rw [if_neg hx, ih (List.nodup_cons.mp hn).2 hm2]

theorem jsSort_perm (l : List Str) : List.Perm (jsSort l) l :=
  List.perm_insertionSort lexLeP l

theorem jsSort_sorted (l : List Str) : List.Sorted lexLeP (jsSort l) :=
  List.sorted_insertionSort lexLeP l

theorem jsSort_eq_of_perm {l1 l2 : List Str} (h : List.Perm l1 l2) :
    jsSort l1 = jsSort l2 :=
  List.eq_of_perm_of_sorted ((jsSort_perm l1).trans (h.trans (jsSort_perm l2).symm))
    (jsSort_sorted l1) (jsSort_sorted l2)

theorem countv_jsSort (v : Str) (l : List Str) : countv v (jsSort l) = countv v l :=
  countv_perm (jsSort_perm l) v

theorem mem_jsSort {v : Str} {l : List Str} : v ∈ jsSort l ↔ v ∈ l :=
  (jsSort_perm l).mem_iff

theorem mem_dedupAux {x : Str} :
    ∀ {l seen : List Str}, x ∈ dedupAux seen l ↔ x ∈ l ∧ x ∉ seen := by
  intro l
  induction l with
  | nil => intro seen; simp [dedupAux]
  | cons y ys ih =>
    intro seen
    by_cases h : y ∈ seen
    · simp only [dedupAux, if_pos h, ih, List.mem_cons]
      by_cases hxy : x = y
      · subst hxy; tauto
      · tauto
    · simp only [dedupAux, if_neg h, List.mem_cons, ih, List.mem_cons]
      by_cases hxy : x = y
      · subst hxy; tauto
      · tauto

theorem nodup_dedupAux : ∀ (l seen : List Str), (dedupAux seen l).Nodup := by
  intro l
  induction l with
  | nil => intro seen; simp [dedupAux]
  | cons y ys ih =>
    intro seen
    by_cases h : y ∈ seen
    · simpa [dedupAux, if_pos h] using ih seen
    · simp only [dedupAux, if_neg h]
      refine List.Nodup.cons ?_ (ih (y :: seen))
      intro hy
      rcases mem_dedupAux.mp hy with ⟨-, hns⟩
      exact hns (List.mem_cons_self y seen)

theorem mem_dedupFirst {x : Str} {l : List Str} : x ∈ dedupFirst l ↔ x ∈ l := by
  simp [dedupFirst, mem_dedupAux]

theorem nodup_dedupFirst (l : List Str) : (dedupFirst l).Nodup := nodup_dedupAux l []

theorem countv_dedupFirst (v : Str) (l : List Str) :
    countv v (dedupFirst l) = if v ∈ l then 1 else 0 := by
  by_cases h : v ∈ l
  · rw [if_pos h]
    exact countv_eq_one_of_nodup (nodup_dedupFirst l) (mem_dedupFirst.mpr h)
  · rw [if_neg h]
    exact countv_eq_zero.mpr (fun hm => h (mem_dedupFirst.mp hm))

/-! Characterization of the best-parent scan of smartSortRegular. -/

theorem candidateStep_none_iff {item : Str} {acc : Option Str} {p : Str} :
    candidateStep item acc p = none ↔ acc = none ∧ ¬ IsCand item p := by
  unfold candidateStep IsCand
  by_cases h1 : p = item
  · simp [h1]
  · by_cases h2 : (0x20 :: p) <:+ item
    · rw [if_neg h1, if_pos h2]
      cases acc with
      | none => simp [h1, h2]
      | some b =>
        constructor
        · intro h
          by_cases h3 : p.length < b.length <;> simp [h3] at h
        · rintro ⟨h, -⟩; cases h
    · simp [h1, h2]

theorem candidateStep_some_cases {item : Str} {acc : Option Str} {p r : Str}
    (h : candidateStep item acc p = some r) : (r = p ∧ IsCand item p) ∨ acc = some r := by
  unfold candidateStep at h
  by_cases h1 : p = item
  · rw [if_pos h1] at h; exact Or.inr h
  · rw [if_neg h1] at h
    by_cases h2 : (0x20 :: p) <:+ item
    · rw [if_pos h2] at h
      cases acc with
      | none => exact Or.inl ⟨(Option.some_inj.mp h).symm, h1, h2⟩
      | some b =>
        dsimp only [] at h
        by_cases h3 : p.length < b.length
        · rw [if_pos h3] at h
          exact Or.inl ⟨(Option.some_inj.mp h).symm, h1, h2⟩
        · rw [if_neg h3] at h
          exact Or.inr h
    · rw [if_neg h2] at h; exact Or.inr h

theorem candidateStep_min {item : Str} {acc : Option Str} {p r : Str}
    (h : candidateStep item acc p = some r) (hc : IsCand item p) :
    r.length ≤ p.length ∨ (∃ b, acc = some b ∧ r.length ≤ b.length) := by
  unfold candidateStep at h
  rw [if_neg hc.1, if_pos hc.2] at h
  cases acc with
  | none => rw [← Option.some_inj.mp h]; exact Or.inl (le_refl _)
  | some b =>
    dsimp only [] at h
    by_cases h3 : p.length < b.length
    · rw [if_pos h3] at h
      rw [← Option.some_inj.mp h]; exact Or.inl (le_refl _)
    · rw [if_neg h3] at h
      rw [← Option.some_inj.mp h]; exact Or.inl (by omega)

theorem candidateStep_of_some {item : Str} {acc : Option Str} {p b : Str}
    (hb : acc = some b) :
    ∃ c, candidateStep item acc p = some c ∧ c.length ≤ b.length := by
  subst hb
  unfold candidateStep
  by_cases h1 : p = item
  · exact ⟨b, by rw [if_pos h1], le_refl _⟩
  · by_cases h2 : (0x20 :: p) <:+ item
    · by_cases h3 : p.length < b.length
      · refine ⟨p, ?_, by omega⟩
        rw [if_neg h1, if_pos h2]
        simp [h3]
      · refine ⟨b, ?_, le_refl _⟩
        rw [if_neg h1, if_pos h2]
        simp [h3]
    · exact ⟨b, by rw [if_neg h1, if_neg h2], le_refl _⟩

theorem candidateStep_cand_some {item : Str} {acc : Option Str} {p : Str}
    (hc : IsCand item p) :
    ∃ c, candidateStep item acc p = some c ∧ c.length ≤ p.length := by
  unfold candidateStep
  rw [if_neg hc.1, if_pos hc.2]
  cases acc with
  | none => exact ⟨p, rfl, le_refl _⟩
  | some b =>
    by_cases h3 : p.length < b.length
    · exact ⟨p, by simp [h3], le_refl _⟩
    · exact ⟨b, by simp [h3], by omega⟩

theorem foldl_candidateStep_none_iff {item : Str} :
    ∀ {pps : List Str} {acc : Option Str},
      pps.foldl (candidateStep item) acc = none ↔
        acc = none ∧ ∀ p ∈ pps, ¬ IsCand item p := by
  intro pps
  induction pps with
  | nil => intro acc; simp [List.foldl_nil]
  | cons p ps ih =>
    intro acc
    rw [List.foldl_cons, ih]
    rw [candidateStep_none_iff]
    constructor
    · rintro ⟨⟨ha, hp⟩, hps⟩
      refine ⟨ha, fun q hq => ?_⟩
      rcases List.mem_cons.mp hq with rfl | hq2
      · exact hp
      · exact hps q hq2
    · rintro ⟨ha, hall⟩
      exact ⟨⟨ha, hall p (List.mem_cons_self p ps)⟩,
        fun q hq => hall q (List.mem_cons_of_mem p hq)⟩

theorem foldl_candidateStep_some {item : Str} :
    ∀ {pps : List Str} {acc : Option Str} {r : Str},
      pps.foldl (candidateStep item) acc = some r →
        ((r ∈ pps ∧ IsCand item r) ∨ acc = some r) ∧
        (∀ p ∈ pps, IsCand item p → r.length ≤ p.length) ∧
        (∀ b, acc = some b → r.length ≤ b.length) := by
  intro pps
  induction pps with
  | nil =>
    intro acc r h
    rw [List.foldl_nil] at h
    exact ⟨Or.inr h, by simp, fun b hb => by rw [h] at hb; rw [Option.some_inj.mp hb]⟩
  | cons p ps ih =>
    intro acc r h
    rw [List.foldl_cons] at h
    obtain ⟨hsrc, hmin, hacc⟩ := ih h
    refine ⟨?_, ?_, ?_⟩
    · rcases hsrc with ⟨hmem, hcand⟩ | hacc'
      · exact Or.inl ⟨List.mem_cons_of_mem p hmem, hcand⟩
      · rcases candidateStep_some_cases hacc' with ⟨hrp, hcand⟩ | ha
        · refine Or.inl ⟨?_, ?_⟩
          · rw [hrp]; exact List.mem_cons_self p ps
          · rw [hrp]; exact hcand
        · exact Or.inr ha
    · intro q hq hcq
      rcases List.mem_cons.mp hq with rfl | hq2
      · obtain ⟨c, hc, hcl⟩ := @candidateStep_cand_some item acc q hcq
        exact le_trans (hacc c hc) hcl
      · exact hmin q hq2 hcq
    · intro b hb
      obtain ⟨c, hc, hcl⟩ := @candidateStep_of_some item acc p b hb
      exact le_trans (hacc c hc) hcl

theorem bestParentFor_none_iff {pps : List Str} {item : Str} :
    bestParentFor pps item = none ↔ ∀ p ∈ pps, ¬ IsCand item p := by
  unfold bestParentFor
  rw [foldl_candidateStep_none_iff]
  simp

theorem bestParentFor_some {pps : List Str} {item r : Str}
    (h : bestParentFor pps item = some r) :
    r ∈ pps ∧ IsCand item r ∧ ∀ p ∈ pps, IsCand item p → r.length ≤ p.length := by
  obtain ⟨hsrc, hmin, -⟩ := foldl_candidateStep_some h
  rcases hsrc with ⟨hmem, hcand⟩ | habs
  · exact ⟨hmem, hcand, hmin⟩
  · cases habs

theorem bestParentFor_isSome_iff {pps : List Str} {item : Str} :
    (bestParentFor pps item).isSome = true ↔ ∃ p ∈ pps, IsCand item p := by
  constructor
  · intro h
    obtain ⟨r, hr⟩ := Option.isSome_iff_exists.mp h
    obtain ⟨hmem, hcand, -⟩ := bestParentFor_some hr
    exact ⟨r, hmem, hcand⟩
  · intro ⟨p, hp, hc⟩
    cases hb : bestParentFor pps item with
    | some r => rfl
    | none => exact absurd hc (bestParentFor_none_iff.mp hb p hp)

theorem cand_eq_of_length_eq {item p q : Str} (hp : IsCand item p) (hq : IsCand item q)
    (h : p.length = q.length) : p = q := by
  obtain ⟨t1, ht1⟩ := hp.2
  obtain ⟨t2, ht2⟩ := hq.2
  have hlen : t1.length = t2.length := by
    have e1 := congrArg List.length ht1
    have e2 := congrArg List.length ht2
    simp only [List.length_append, List.length_cons] at e1 e2
    omega
  have := List.append_inj_right (ht1.trans ht2.symm) hlen
  exact List.cons_injective this

theorem bestParentFor_ext {pps1 pps2 : List Str} {item : Str}
    (h : ∀ p, p ∈ pps1 ↔ p ∈ pps2) :
    bestParentFor pps1 item = bestParentFor pps2 item := by
  cases h1 : bestParentFor pps1 item with
  | none =>
    cases h2 : bestParentFor pps2 item with
    | none => rfl
    | some r2 =>
      obtain ⟨hmem, hcand, -⟩ := bestParentFor_some h2
      exact absurd hcand (bestParentFor_none_iff.mp h1 r2 ((h r2).mpr hmem))
  | some r1 =>
    cases h2 : bestParentFor pps2 item with
    | none =>
      obtain ⟨hmem, hcand, -⟩ := bestParentFor_some h1
      exact absurd hcand (bestParentFor_none_iff.mp h2 r1 ((h r1).mp hmem))
    | some r2 =>
      obtain ⟨hmem1, hcand1, hmin1⟩ := bestParentFor_some h1
      obtain ⟨hmem2, hcand2, hmin2⟩ := bestParentFor_some h2
      have hle1 : r1.length ≤ r2.length := hmin1 r2 ((h r2).mpr hmem2) hcand2
      have hle2 : r2.length ≤ r1.length := hmin2 r1 ((h r1).mp hmem1) hcand1
      rw [cand_eq_of_length_eq hcand1 hcand2 (by omega)]

/-! Relationships and parents. -/

theorem relOf_ext {items1 items2 : List Str} (h : ∀ v, v ∈ items1 ↔ v ∈ items2)
    (i : Str) : relOf items1 i = relOf items2 i :=
  bestParentFor_ext (fun p => by rw [mem_dedupFirst, mem_dedupFirst]; exact h p)

theorem mem_parentsOf {items : List Str} {v : Str} :
    v ∈ parentsOf items ↔ ∃ i ∈ items, relOf items i = some v := List.mem_filterMap

theorem parentsOf_sub {items : List Str} {v : Str} (h : v ∈ parentsOf items) :
    v ∈ items := by
  obtain ⟨i, hi, hrel⟩ := mem_parentsOf.mp h
  exact mem_dedupFirst.mp (bestParentFor_some hrel).1

theorem relOf_mem_parentsOf {items : List Str} {i p : Str} (hi : i ∈ items)
    (h : relOf items i = some p) : p ∈ parentsOf items :=
  mem_parentsOf.mpr ⟨i, hi, h⟩

/-! Sum bookkeeping helpers. -/

theorem sum_map_add_distrib (l : List Str) (f g : Str → Nat) :
    (l.map (fun i => f i + g i)).sum = (l.map f).sum + (l.map g).sum := by
  induction l with
  | nil => rfl
  | cons x xs ih =>
    simp only [List.map_cons, List.sum_cons, ih]
    omega

theorem sum_map_eq_zero {l : List Str} {f : Str → Nat} (h : ∀ i ∈ l, f i = 0) :
    (l.map f).sum = 0 := by
  induction l with
  | nil => rfl
  | cons x xs ih =>
    simp only [List.map_cons, List.sum_cons]
    rw [h x (List.mem_cons_self x xs), ih (fun i hi => h i (List.mem_cons_of_mem x hi))]

theorem sum_map_indicator (v : Str) (l : List Str) :
    (l.map (fun i => if i = v then 1 else 0)).sum = countv v l := by
  induction l with
  | nil => rfl
  | cons x xs ih =>
    simp only [List.map_cons, List.sum_cons, countv_cons, ih]
    omega

theorem sum_map_single {l : List Str} {f : Str → Nat} {a : Str}
    (h : ∀ i ∈ l, i ≠ a → f i = 0) : (l.map f).sum = countv a l * f a := by
  induction l with
  | nil => simp [countv]
  | cons x xs ih =>
    simp only [List.map_cons, List.sum_cons, countv_cons]
    rw [ih (fun i hi hne => h i (List.mem_cons_of_mem x hi) hne)]
    by_cases hxa : x = a
    · subst hxa
      rw [if_pos rfl, add_mul, one_mul]
      omega
    · rw [h x (List.mem_cons_self x xs) hxa, if_neg hxa]
      simp

theorem countv_flatMap (v : Str) (l : List Str) (g : Str → List Str) :
    countv v (l.flatMap g) = (l.map (fun i => countv v (g i))).sum := by
  induction l with
  | nil => rfl
  | cons x xs ih =>
    rw [List.flatMap_cons, countv_append, ih, List.map_cons, List.sum_cons]

/-! Counting through the pieces of smartSortRegular. -/

theorem countv_rootsOf (items : List Str) (v : Str) :
    countv v (rootsOf items) = if v ∈ items ∧ v ∈ parentsOf items then 1 else 0 := by
  unfold rootsOf
  rw [countv_dedupFirst]
  by_cases h : v ∈ items ∧ v ∈ parentsOf items
  · rw [if_pos h, if_pos (List.mem_filter.mpr ⟨h.1, by simpa using h.2⟩)]
  · rw [if_neg h]
    rw [if_neg (fun hm => h ⟨(List.mem_filter.mp hm).1, by simpa using (List.mem_filter.mp hm).2⟩)]

theorem countv_orphansOf (items : List Str) (v : Str) :
    countv v (orphansOf items) =
      if v ∉ parentsOf items ∧ relOf items v = none then countv v items else 0 := by
  unfold orphansOf
  rw [countv_filter]
  by_cases h : v ∉ parentsOf items ∧ relOf items v = none
  · rw [if_pos h, if_pos (by simpa using h)]
  · rw [if_neg h, if_neg (by simpa using h)]

theorem countv_childrenOf (items : List Str) (p v : Str) :
    countv v (childrenOf items p) =
      if v ∉ parentsOf items ∧ relOf items v = some p then countv v items else 0 := by
  unfold childrenOf
  rw [countv_filter]
  by_cases h : v ∉ parentsOf items ∧ relOf items v = some p
  · rw [if_pos h, if_pos (by simpa using h)]
  · rw [if_neg h, if_neg (by simpa using h)]

theorem mem_rootsOf {items : List Str} {v : Str} :
    v ∈ rootsOf items ↔ v ∈ items ∧ v ∈ parentsOf items := by
  unfold rootsOf
  rw [mem_dedupFirst, List.mem_filter]
  simp

theorem mem_orphansOf {items : List Str} {v : Str} :
    v ∈ orphansOf items ↔ v ∈ items ∧ v ∉ parentsOf items ∧ relOf items v = none := by
  unfold orphansOf
  rw [List.mem_filter]
  simp [and_assoc]

/-- The central multiset fact: `smartSortRegular` keeps every occurrence of a
non-parent value and collapses each parent value to a single occurrence
(this collapse is what loses duplicated parent labels). -/
theorem countv_smartSortRegular (items : List Str) (v : Str) :
    countv v (smartSortRegular items) =
      if v ∈ parentsOf items then 1 else countv v items := by
  unfold smartSortRegular
  rw [countv_flatMap]
  have hsplit : ∀ i : Str,
      countv v (i :: (if i ∈ parentsOf items then jsSort (childrenOf items i) else [])) =
        (if i = v then 1 else 0) +
          (if i ∈ parentsOf items then countv v (childrenOf items i) else 0) := by
    intro i
    rw [countv_cons]
    by_cases hp : i ∈ parentsOf items
    · rw [if_pos hp, if_pos hp, countv_jsSort]; omega
    · rw [if_neg hp, if_neg hp, countv_nil]; omega
  rw [List.map_congr_left (fun i _ => hsplit i), sum_map_add_distrib, sum_map_indicator]
  have hAcount : countv v (jsSort (jsSort (rootsOf items) ++ jsSort (orphansOf items))) =
      countv v (rootsOf items) + countv v (orphansOf items) := by
    rw [countv_jsSort, countv_append, countv_jsSort, countv_jsSort]
  have hperm : List.Perm (jsSort (jsSort (rootsOf items) ++ jsSort (orphansOf items)))
      (jsSort (rootsOf items) ++ jsSort (orphansOf items)) := jsSort_perm _
  have hsum2 : ((jsSort (jsSort (rootsOf items) ++ jsSort (orphansOf items))).map
        (fun i => if i ∈ parentsOf items then countv v (childrenOf items i) else 0)).sum =
      ((jsSort (rootsOf items)).map
        (fun i => if i ∈ parentsOf items then countv v (childrenOf items i) else 0)).sum +
      ((jsSort (orphansOf items)).map
        (fun i => if i ∈ parentsOf items then countv v (childrenOf items i) else 0)).sum := by
    rw [(hperm.map _).sum_eq, List.map_append, List.sum_append]
  have horphzero : ((jsSort (orphansOf items)).map
      (fun i => if i ∈ parentsOf items then countv v (childrenOf items i) else 0)).sum = 0 := by
    refine sum_map_eq_zero (fun i hi => ?_)
    have : i ∉ parentsOf items := (mem_orphansOf.mp (mem_jsSort.mp hi)).2.1
    rw [if_neg this]
  rw [hAcount, hsum2, horphzero]
  by_cases hvp : v ∈ parentsOf items
  · have hchildzero : ((jsSort (rootsOf items)).map
        (fun i => if i ∈ parentsOf items then countv v (childrenOf items i) else 0)).sum = 0 := by
      refine sum_map_eq_zero (fun i hi => ?_)
      by_cases hp : i ∈ parentsOf items
      · rw [if_pos hp, countv_childrenOf, if_neg (fun hc => hc.1 hvp)]
      · rw [if_neg hp]
    rw [hchildzero, countv_rootsOf, countv_orphansOf,
      if_pos ⟨parentsOf_sub hvp, hvp⟩, if_neg (fun hc => hc.1 hvp), if_pos hvp]
  · cases hrel : relOf items v with
    | none =>
      have hchildzero : ((jsSort (rootsOf items)).map
          (fun i => if i ∈ parentsOf items then countv v (childrenOf items i) else 0)).sum = 0 := by
        refine sum_map_eq_zero (fun i hi => ?_)
        by_cases hp : i ∈ parentsOf items
        · rw [if_pos hp, countv_childrenOf, if_neg (fun hc => by rw [hrel] at hc; cases hc.2)]
        · rw [if_neg hp]
      rw [hchildzero, countv_rootsOf, countv_orphansOf,
        if_neg (fun hc => hvp hc.2), if_pos ⟨hvp, hrel⟩, if_neg hvp]
      omega
    | some p0 =>
      have hchild : ((jsSort (rootsOf items)).map
          (fun i => if i ∈ parentsOf items then countv v (childrenOf items i) else 0)).sum =
          countv p0 (jsSort (rootsOf items)) *
            (if p0 ∈ parentsOf items then countv v (childrenOf items p0) else 0) := by
        refine sum_map_single (fun i hi hne => ?_)
        by_cases hp : i ∈ parentsOf items
        · rw [if_pos hp, countv_childrenOf,
            if_neg (fun hc => hne (by rw [hrel] at hc; exact (Option.some_inj.mp hc.2).symm))]
        · rw [if_neg hp]
      rw [hchild, countv_rootsOf, countv_orphansOf,
        if_neg (fun hc => hvp hc.2), if_neg (fun hc => by rw [hrel] at hc; cases hc.2),
        if_neg hvp]
      by_cases hvi : v ∈ items
      · have hp0 : p0 ∈ parentsOf items := relOf_mem_parentsOf hvi hrel
        have hp0i : p0 ∈ items := parentsOf_sub hp0
        rw [countv_jsSort, countv_rootsOf, if_pos ⟨hp0i, hp0⟩, if_pos hp0,
          countv_childrenOf, if_pos ⟨hvp, hrel⟩]
        omega
      · have hz : countv v items = 0 := countv_eq_zero.mpr hvi
        rw [hz]
        by_cases hp0 : p0 ∈ parentsOf items
        · rw [if_pos hp0, countv_childrenOf, if_pos ⟨hvp, hrel⟩, hz]
          omega
        · rw [if_neg hp0]
          omega

/-! Membership and idempotence of the per-section sorter. -/

theorem mem_smartSortRegular {items : List Str} {v : Str} :
    v ∈ smartSortRegular items ↔ v ∈ items := by
  constructor
  · intro h
    have hc := countv_pos.mpr h
    rw [countv_smartSortRegular] at hc
    by_cases hp : v ∈ parentsOf items
    · exact parentsOf_sub hp
    · rw [if_neg hp] at hc
      exact countv_pos.mp hc
  · intro h
    refine countv_pos.mp ?_
    rw [countv_smartSortRegular]
    by_cases hp : v ∈ parentsOf items
    · rw [if_pos hp]; omega
    · rw [if_neg hp]; exact countv_pos.mpr h

theorem smartSortRegular_ne_nil {items : List Str} (h : items ≠ []) :
    smartSortRegular items ≠ [] := by
  intro habs
  rcases items with _ | ⟨x, xs⟩
  · exact h rfl
  · have : x ∈ smartSortRegular (x :: xs) :=
      mem_smartSortRegular.mpr (List.mem_cons_self x xs)
    rw [habs] at this
    cases this

theorem flatMap_congr {l : List Str} {f g : Str → List Str}
    (h : ∀ i ∈ l, f i = g i) : l.flatMap f = l.flatMap g := by
  induction l with
  | nil => rfl
  | cons x xs ih =>
    rw [List.flatMap_cons, List.flatMap_cons, h x (List.mem_cons_self x xs),
      ih (fun i hi => h i (List.mem_cons_of_mem x hi))]

theorem smartSortRegular_idem (items : List Str) :
    smartSortRegular (smartSortRegular items) = smartSortRegular items := by
  have hmem : ∀ v : Str, v ∈ smartSortRegular items ↔ v ∈ items :=
    fun v => mem_smartSortRegular
  have hrel : ∀ i, relOf (smartSortRegular items) i = relOf items i := relOf_ext hmem
  have hpar : ∀ v, v ∈ parentsOf (smartSortRegular items) ↔ v ∈ parentsOf items := by
    intro v
    rw [mem_parentsOf, mem_parentsOf]
    constructor
    · rintro ⟨i, hi, hr⟩
      exact ⟨i, (hmem i).mp hi, (hrel i).symm.trans hr⟩
    · rintro ⟨i, hi, hr⟩
      exact ⟨i, (hmem i).mpr hi, (hrel i).trans hr⟩
  have hcnt : ∀ v, v ∉ parentsOf items →
      countv v (smartSortRegular items) = countv v items := by
    intro v hv
    rw [countv_smartSortRegular, if_neg hv]
  have hroots : jsSort (rootsOf (smartSortRegular items)) = jsSort (rootsOf items) := by
    refine jsSort_eq_of_perm (perm_of_countv (fun v => ?_))
    rw [countv_rootsOf, countv_rootsOf]
    exact if_congr (and_congr (hmem v) (hpar v)) rfl rfl
  have horph : jsSort (orphansOf (smartSortRegular items)) = jsSort (orphansOf items) := by
    refine jsSort_eq_of_perm (perm_of_countv (fun v => ?_))
    rw [countv_orphansOf, countv_orphansOf, hrel v]
    by_cases hc : v ∉ parentsOf items ∧ relOf items v = none
    · rw [if_pos ⟨fun hp => hc.1 ((hpar v).mp hp), hc.2⟩, if_pos hc, hcnt v hc.1]
    · rw [if_neg (fun hco => hc ⟨fun hp => hco.1 ((hpar v).mpr hp), hco.2⟩), if_neg hc]
  have hchild : ∀ p, p ∈ parentsOf items →
      jsSort (childrenOf (smartSortRegular items) p) = jsSort (childrenOf items p) := by
    intro p hp
    refine jsSort_eq_of_perm (perm_of_countv (fun v => ?_))
    rw [countv_childrenOf, countv_childrenOf, hrel v]
    by_cases hc : v ∉ parentsOf items ∧ relOf items v = some p
    · rw [if_pos ⟨fun h2 => hc.1 ((hpar v).mp h2), hc.2⟩, if_pos hc, hcnt v hc.1]
    · rw [if_neg (fun hco => hc ⟨fun h2 => hco.1 ((hpar v).mpr h2), hco.2⟩), if_neg hc]
  have hA : jsSort (jsSort (rootsOf (smartSortRegular items)) ++
        jsSort (orphansOf (smartSortRegular items))) =
      jsSort (jsSort (rootsOf items) ++ jsSort (orphansOf items)) := by
    rw [hroots, horph]
  calc smartSortRegular (smartSortRegular items)
      = (jsSort (jsSort (rootsOf (smartSortRegular items)) ++
            jsSort (orphansOf (smartSortRegular items)))).flatMap
          (fun i => i :: (if i ∈ parentsOf (smartSortRegular items) then
            jsSort (childrenOf (smartSortRegular items) i) else [])) := rfl
    _ = (jsSort (jsSort (rootsOf items) ++ jsSort (orphansOf items))).flatMap
          (fun i => i :: (if i ∈ parentsOf items then jsSort (childrenOf items i) else [])) := by
        rw [hA]
        refine flatMap_congr (fun i hi => ?_)
        by_cases hp : i ∈ parentsOf items
        · rw [if_pos ((hpar i).mpr hp), if_pos hp, hchild i hp]
        · rw [if_neg (fun h2 => hp ((hpar i).mp h2)), if_neg hp]
    _ = smartSortRegular items := rfl

theorem mem_sortSection {items : List Str} {v : Str} :
    v ∈ sortSection items ↔ v ∈ items := by
  unfold sortSection
  rw [List.mem_append, List.mem_filter, mem_smartSortRegular, List.mem_filter]
  by_cases hs : isStickyHeader v <;> simp [hs]

theorem sortSection_idem (items : List Str) :
    sortSection (sortSection items) = sortSection items := by
  have hS : (sortSection items).filter isStickyHeader = items.filter isStickyHeader := by
    unfold sortSection
    rw [List.filter_append]
    have h1 : (items.filter isStickyHeader).filter isStickyHeader =
        items.filter isStickyHeader :=
      List.filter_eq_self.mpr (fun a ha => (List.mem_filter.mp ha).2)
    have h2 : (smartSortRegular (items.filter (fun i => !isStickyHeader i))).filter
        isStickyHeader = [] := by
      refine List.filter_eq_nil_iff.mpr (fun a ha => ?_)
      have hns := (List.mem_filter.mp (mem_smartSortRegular.mp ha)).2
      simp only [Bool.not_eq_eq_eq_not, Bool.not_true] at hns
      simp [hns]
    rw [h1, h2, List.append_nil]
  have hR : (sortSection items).filter (fun i => !isStickyHeader i) =
      smartSortRegular (items.filter (fun i => !isStickyHeader i)) := by
    unfold sortSection
    rw [List.filter_append]
    have h1 : (items.filter isStickyHeader).filter (fun i => !isStickyHeader i) = [] := by
      refine List.filter_eq_nil_iff.mpr (fun a ha => ?_)
      have hs := (List.mem_filter.mp ha).2
      simp [hs]
    have h2 : (smartSortRegular (items.filter (fun i => !isStickyHeader i))).filter
        (fun i => !isStickyHeader i) =
        smartSortRegular (items.filter (fun i => !isStickyHeader i)) :=
      List.filter_eq_self.mpr
        (fun a ha => (List.mem_filter.mp (mem_smartSortRegular.mp ha)).2)
    rw [h1, h2, List.nil_append]
  have hdef : sortSection (sortSection items) =
      (sortSection items).filter isStickyHeader ++
        smartSortRegular ((sortSection items).filter (fun i => !isStickyHeader i)) := rfl
  rw [hdef, hS, hR, smartSortRegular_idem]
  rfl

/-! Segmentation lemmas. -/

theorem segmentsAux_nil (cur : List Str) :
    segmentsAux cur [] = if cur.isEmpty then [] else [cur] := rfl

theorem segmentsAux_cons_breaker {n : Str} (cur : List Str) (ns : List Str)
    (hb : isSequenceBreaker n = true) :
    segmentsAux cur (n :: ns) =
      (if cur.isEmpty then [] else [cur]) ++ segmentsAux [n] ns := by
  simp only [segmentsAux, hb, if_true]

theorem segmentsAux_cons_nonbreaker {n : Str} (cur : List Str) (ns : List Str)
    (hb : isSequenceBreaker n = false) :
    segmentsAux cur (n :: ns) = segmentsAux (cur ++ [n]) ns := by
  simp only [segmentsAux, hb, Bool.false_eq_true, if_false]

theorem foldl_flushStep_eq :
    ∀ (names : List Str) (res cur : List Str),
      (names.foldl flushStep (res, cur)).1 ++
        (if (names.foldl flushStep (res, cur)).2.isEmpty then []
          else sortSection (names.foldl flushStep (res, cur)).2) =
      res ++ ((segmentsAux cur names).map sortSection).flatten := by
  intro names
  induction names with
  | nil =>
    intro res cur
    rw [List.foldl_nil, segmentsAux_nil]
    by_cases hc : cur.isEmpty
    · rw [if_pos hc, if_pos hc]; simp
    · rw [if_neg hc, if_neg hc]; simp
  | cons n ns ih =>
    intro res cur
    rw [List.foldl_cons]
    by_cases hb : isSequenceBreaker n
    · have hstep : flushStep (res, cur) n =
          (res ++ (if cur.isEmpty then [] else sortSection cur), [n]) := by
        unfold flushStep
        rw [if_pos hb]
      rw [hstep, ih, segmentsAux_cons_breaker cur ns hb]
      by_cases hc : cur.isEmpty
      · rw [if_pos hc, if_pos hc]; simp
      · rw [if_neg hc, if_neg hc]
        simp [List.append_assoc]
    · have hstep : flushStep (res, cur) n = (res, cur ++ [n]) := by
        unfold flushStep
        rw [if_neg hb]
      rw [hstep, ih, segmentsAux_cons_nonbreaker cur ns (by simpa using hb)]

/-- The loop of `sortPagesSmartly` flushes exactly the segments, in order. -/
theorem sortPagesSmartly_eq_segments (names : List Str) :
    sortPagesSmartly names = ((segments names).map sortSection).flatten := by
  have h := foldl_flushStep_eq names [] []
  simpa [sortPagesSmartly, segments] using h

theorem segmentsAux_flatten :
    ∀ (names cur : List Str), (segmentsAux cur names).flatten = cur ++ names := by
  intro names
  induction names with
  | nil =>
    intro cur
    rw [segmentsAux_nil]
    by_cases hc : cur.isEmpty
    · rw [if_pos hc]
      simp [List.isEmpty_iff.mp hc]
    · rw [if_neg hc]; simp
  | cons n ns ih =>
    intro cur
    by_cases hb : isSequenceBreaker n
    · rw [segmentsAux_cons_breaker cur ns hb, List.flatten_append, ih [n]]
      by_cases hc : cur.isEmpty
      · rw [if_pos hc]
        simp [List.isEmpty_iff.mp hc]
      · rw [if_neg hc]; simp
    · rw [segmentsAux_cons_nonbreaker cur ns (by simpa using hb), ih (cur ++ [n])]
      simp

/-- Splitting the input at its segments reproduces the input. -/
theorem segments_flatten (names : List Str) : (segments names).flatten = names :=
  segmentsAux_flatten names []

theorem tailOK_append_single {cur : List Str} {n : Str} (h : TailOK cur)
    (hn : isSequenceBreaker n = false) : TailOK (cur ++ [n]) := by
  intro x hx
  cases cur with
  | nil => simp at hx
  | cons c cs =>
    simp only [List.cons_append, List.drop_succ_cons, List.drop_zero] at hx
    rcases List.mem_append.mp hx with h1 | h2
    · exact h x (by simpa using h1)
    · rw [List.mem_singleton.mp h2]; exact hn

theorem segmentsAux_wf :
    ∀ (names cur : List Str), TailOK cur →
      ∀ seg ∈ segmentsAux cur names, seg ≠ [] ∧ TailOK seg := by
  intro names
  induction names with
  | nil =>
    intro cur hcur seg hseg
    rw [segmentsAux_nil] at hseg
    by_cases hc : cur.isEmpty
    · rw [if_pos hc] at hseg; cases hseg
    · rw [if_neg hc] at hseg
      rw [List.mem_singleton.mp hseg]
      exact ⟨fun he => hc (by simp [he]), hcur⟩
  | cons n ns ih =>
    intro cur hcur seg hseg
    by_cases hb : isSequenceBreaker n
    · rw [segmentsAux_cons_breaker cur ns hb] at hseg
      rcases List.mem_append.mp hseg with h1 | h2
      · by_cases hc : cur.isEmpty
        · rw [if_pos hc] at h1; cases h1
        · rw [if_neg hc] at h1
          rw [List.mem_singleton.mp h1]
          exact ⟨fun he => hc (by simp [he]), hcur⟩
      · exact ih [n] (fun x hx => by simp at hx) seg h2
    · rw [segmentsAux_cons_nonbreaker cur ns (by simpa using hb)] at hseg
      exact ih (cur ++ [n]) (tailOK_append_single hcur (by simpa using hb)) seg hseg

theorem segments_wf {names : List Str} {seg : List Str} (h : seg ∈ segments names) :
    seg ≠ [] ∧ TailOK seg :=
  segmentsAux_wf names [] (fun x hx => by cases hx) seg h

theorem segmentsAux_breakerHeaded :
    ∀ (names : List Str) (b : Str) (t : List Str),
      isSequenceBreaker b = true → BreakerFree t →
      ∀ s ∈ segmentsAux (b :: t) names, BreakerHeaded s := by
  intro names
  induction names with
  | nil =>
    intro b t hb ht s hs
    rw [segmentsAux_nil] at hs
    simp only [List.isEmpty_cons, Bool.false_eq_true, if_false] at hs
    rw [List.mem_singleton.mp hs]
    exact ⟨b, t, rfl, hb, ht⟩
  | cons n ns ih =>
    intro b t hb ht s hs
    by_cases hn : isSequenceBreaker n
    · rw [segmentsAux_cons_breaker (b :: t) ns hn] at hs
      simp only [List.isEmpty_cons, Bool.false_eq_true, if_false] at hs
      rcases List.mem_append.mp hs with h1 | h2
      · rw [List.mem_singleton.mp h1]
        exact ⟨b, t, rfl, hb, ht⟩
      · exact ih n [] hn (fun x hx => by cases hx) s h2
    · rw [segmentsAux_cons_nonbreaker (b :: t) ns (by simpa using hn)] at hs
      have : BreakerFree (t ++ [n]) := by
        intro x hx
        rcases List.mem_append.mp hx with h1 | h2
        · exact ht x h1
        · rw [List.mem_singleton.mp h2]; simpa using hn
      exact ih b (t ++ [n]) hb this s (by simpa using hs)

theorem segmentsAux_shape :
    ∀ (names t : List Str), BreakerFree t →
      ∃ u rest, BreakerFree u ∧ (∀ s ∈ rest, BreakerHeaded s) ∧
        segmentsAux t names = (if u.isEmpty then [] else [u]) ++ rest := by
  intro names
  induction names with
  | nil =>
    intro t ht
    refine ⟨t, [], ht, ?_, ?_⟩
    · intro s hs; cases hs
    · rw [segmentsAux_nil, List.append_nil]
  | cons n ns ih =>
    intro t ht
    by_cases hn : isSequenceBreaker n
    · refine ⟨t, segmentsAux [n] ns, ht, ?_, segmentsAux_cons_breaker t ns hn⟩
      exact segmentsAux_breakerHeaded ns n [] hn (fun x hx => by cases hx)
    · have htn : BreakerFree (t ++ [n]) := by
        intro x hx
        rcases List.mem_append.mp hx with h1 | h2
        · exact ht x h1
        · rw [List.mem_singleton.mp h2]; simpa using hn
      obtain ⟨u, rest, hu, hrest, heq⟩ := ih (t ++ [n]) htn
      exact ⟨u, rest, hu, hrest, by
        rw [segmentsAux_cons_nonbreaker t ns (by simpa using hn), heq]⟩

theorem segments_shape (names : List Str) :
    ∃ u rest, BreakerFree u ∧ (∀ s ∈ rest, BreakerHeaded s) ∧
      segments names = (if u.isEmpty then [] else [u]) ++ rest :=
  segmentsAux_shape names [] (fun x hx => by cases hx)

theorem segmentsAux_absorb :
    ∀ (t cur xs : List Str), BreakerFree t →
      segmentsAux cur (t ++ xs) = segmentsAux (cur ++ t) xs := by
  intro t
  induction t with
  | nil => intro cur xs _; simp
  | cons m ms ih =>
    intro cur xs ht
    have hm : isSequenceBreaker m = false := ht m (List.mem_cons_self m ms)
    rw [List.cons_append, segmentsAux_cons_nonbreaker cur (ms ++ xs) hm,
      ih (cur ++ [m]) xs (fun x hx => ht x (List.mem_cons_of_mem m hx))]
    simp [List.append_assoc]

theorem segmentsAux_flatten_headed :
    ∀ (ss : List (List Str)) (cur : List Str), cur ≠ [] →
      (∀ s ∈ ss, BreakerHeaded s) →
      segmentsAux cur ss.flatten = cur :: ss := by
  intro ss
  induction ss with
  | nil =>
    intro cur hc _
    rw [List.flatten_nil, segmentsAux_nil, if_neg (by simpa using hc)]
  | cons s rest ih =>
    intro cur hc hh
    obtain ⟨b, t, rfl, hb, ht⟩ := hh s (List.mem_cons_self s rest)
    rw [List.flatten_cons, List.cons_append,
      segmentsAux_cons_breaker cur (t ++ rest.flatten) hb,
      if_neg (by simpa using hc),
      segmentsAux_absorb t [b] rest.flatten ht]
    rw [show ([b] ++ t) = b :: t from rfl,
      ih (b :: t) (by simp) (fun q hq => hh q (List.mem_cons_of_mem _ hq))]
    rfl

/-! Per-section breaker bookkeeping. -/

theorem sticky_imp_breaker {x : Str} (h : isStickyHeader x = true) :
    isSequenceBreaker x = true := by
  unfold isSequenceBreaker
  rw [h, Bool.or_true]

theorem not_sticky_of_not_breaker {x : Str} (h : isSequenceBreaker x = false) :
    isStickyHeader x = false := by
  cases hs : isStickyHeader x with
  | false => rfl
  | true => rw [sticky_imp_breaker hs] at h; cases h

theorem countv_replicate_self (b : Str) (n : Nat) :
    countv b (List.replicate n b) = n := by
  induction n with
  | zero => rfl
  | succ m ih => rw [List.replicate_succ, countv_cons, ih, if_pos rfl]

theorem countv_sortSection_head {b : Str} {t : List Str}
    (hb : isSequenceBreaker b = true) (ht : BreakerFree t) :
    countv b (sortSection (b :: t)) = 1 := by
  have hbt : b ∉ t := fun hmem => by rw [ht b hmem] at hb; cases hb
  have hcseg : countv b (b :: t) = 1 := by
    rw [countv_cons, countv_eq_zero.mpr hbt, if_pos rfl]
  have hstep : countv b (sortSection (b :: t)) =
      (if isStickyHeader b then countv b (b :: t) else 0) +
      (if b ∈ parentsOf ((b :: t).filter (fun i => !isStickyHeader i)) then 1
        else if !isStickyHeader b then countv b (b :: t) else 0) := by
    unfold sortSection
    rw [countv_append, countv_filter, countv_smartSortRegular, countv_filter]
  rw [hstep, hcseg]
  cases hs : isStickyHeader b with
  | true =>
    have hnp : b ∉ parentsOf ((b :: t).filter (fun i => !isStickyHeader i)) := by
      intro hp
      have h2 := (List.mem_filter.mp (parentsOf_sub hp)).2
      rw [hs] at h2
      simp at h2
    rw [if_pos rfl, if_neg hnp, if_neg (by simp)]
  | false =>
    by_cases hp : b ∈ parentsOf ((b :: t).filter (fun i => !isStickyHeader i))
    · rw [if_neg (by simp), if_pos hp]
    · rw [if_neg (by simp), if_neg hp, if_pos (by simp)]

theorem filter_breaker_sortSection {seg : List Str} (hne : seg ≠ []) (hwf : TailOK seg) :
    (sortSection seg).filter isSequenceBreaker = seg.filter isSequenceBreaker := by
  rcases seg with _ | ⟨b, t⟩
  · cases hne rfl
  have htail : BreakerFree t := fun x hx => hwf x (by simpa using hx)
  by_cases hb : isSequenceBreaker b
  · have hRHS : (b :: t).filter isSequenceBreaker = [b] := by
      rw [List.filter_cons_of_pos hb,
        List.filter_eq_nil_iff.mpr (fun a ha => by simp [htail a ha])]
    have hmemF : ∀ x ∈ (sortSection (b :: t)).filter isSequenceBreaker, x = b := by
      intro x hx
      obtain ⟨hxs, hxb⟩ := List.mem_filter.mp hx
      rcases List.mem_cons.mp (mem_sortSection.mp hxs) with h1 | h2
      · exact h1
      · rw [htail x h2] at hxb; cases hxb
    have hrepl := List.eq_replicate_of_mem hmemF
    have hlen : ((sortSection (b :: t)).filter isSequenceBreaker).length = 1 := by
      have hc : countv b ((sortSection (b :: t)).filter isSequenceBreaker) =
          countv b (sortSection (b :: t)) := by
        rw [countv_filter, if_pos hb]
      rw [hrepl, countv_replicate_self] at hc
      rw [hc, countv_sortSection_head hb htail]
    rw [hRHS, hrepl, hlen]
    rfl
  · have hfree : BreakerFree (b :: t) := by
      intro x hx
      rcases List.mem_cons.mp hx with rfl | h2
      · simpa using hb
      · exact htail x h2
    rw [List.filter_eq_nil_iff.mpr
        (fun a ha => by simp [hfree a (mem_sortSection.mp ha)]),
      List.filter_eq_nil_iff.mpr (fun a ha => by simp [hfree a ha])]

/-! Shape of sorted sections and re-segmentation. -/

theorem sortSection_sticky_head {s : Str} {t : List Str} (hs : isStickyHeader s = true)
    (ht : BreakerFree t) : sortSection (s :: t) = s :: smartSortRegular t := by
  have hnt : ∀ a ∈ t, isStickyHeader a = false :=
    fun a ha => not_sticky_of_not_breaker (ht a ha)
  have h1 : (s :: t).filter isStickyHeader = [s] := by
    rw [List.filter_cons_of_pos hs,
      List.filter_eq_nil_iff.mpr (fun a ha => by simp [hnt a ha])]
  have h2 : (s :: t).filter (fun i => !isStickyHeader i) = t := by
    rw [List.filter_cons_of_neg (by simp [hs]),
      List.filter_eq_self.mpr (fun a ha => by simp [hnt a ha])]
  show (s :: t).filter isStickyHeader ++
      smartSortRegular ((s :: t).filter (fun i => !isStickyHeader i)) =
    s :: smartSortRegular t
  rw [h1, h2]
  rfl

theorem sortSection_breakerFree {u : List Str} (hu : BreakerFree u) :
    sortSection u = smartSortRegular u := by
  have hns : ∀ a ∈ u, isStickyHeader a = false :=
    fun a ha => not_sticky_of_not_breaker (hu a ha)
  show u.filter isStickyHeader ++
      smartSortRegular (u.filter (fun i => !isStickyHeader i)) = smartSortRegular u
  rw [List.filter_eq_nil_iff.mpr (fun a ha => by simp [hns a ha]),
    List.filter_eq_self.mpr (fun a ha => by simp [hns a ha]), List.nil_append]

theorem breakerFree_smartSortRegular {t : List Str} (ht : BreakerFree t) :
    BreakerFree (smartSortRegular t) :=
  fun x hx => ht x (mem_smartSortRegular.mp hx)

theorem segments_flatten_headed (ss : List (List Str))
    (h : ∀ s ∈ ss, BreakerHeaded s) : segments ss.flatten = ss := by
  cases ss with
  | nil => rfl
  | cons s rest =>
    obtain ⟨b, t, rfl, hb, ht⟩ := h s (List.mem_cons_self s rest)
    unfold segments
    rw [List.flatten_cons, List.cons_append,
      segmentsAux_cons_breaker [] (t ++ rest.flatten) hb,
      if_pos (show ([] : List Str).isEmpty = true from rfl),
      segmentsAux_absorb t [b] rest.flatten ht, List.nil_append,
      show ([b] ++ t) = b :: t from rfl,
      segmentsAux_flatten_headed rest (b :: t) (by simp)
        (fun q hq => h q (List.mem_cons_of_mem _ hq))]

theorem segments_free_then_headed (u : List Str) (ss : List (List Str))
    (hu : BreakerFree u) (hne : u ≠ []) (hss : ∀ s ∈ ss, BreakerHeaded s) :
    segments (u ++ ss.flatten) = u :: ss := by
  unfold segments
  rw [segmentsAux_absorb u [] ss.flatten hu, List.nil_append,
    segmentsAux_flatten_headed ss u hne hss]

/-- On a divider-free input, re-scanning the output of `sortPagesSmartly`
recovers exactly the sorted sections. -/
theorem segments_sortPagesSmartly_of_dividerFree {names : List Str}
    (hdf : DividerFree names) :
    segments (sortPagesSmartly names) = (segments names).map sortSection := by
  obtain ⟨u, rest, hu, hrest, hseg⟩ := segments_shape names
  have hmemnames : ∀ s ∈ segments names, ∀ x ∈ s, x ∈ names := by
    intro s hs x hx
    have : x ∈ (segments names).flatten := List.mem_flatten.mpr ⟨s, hs, hx⟩
    rwa [segments_flatten] at this
  have hbs : ∀ x ∈ names, isSequenceBreaker x = true → isStickyHeader x = true := by
    intro x hx hb
    unfold isSequenceBreaker at hb
    rw [hdf x hx] at hb
    simpa using hb
  have hmap_headed : ∀ s ∈ rest, BreakerHeaded (sortSection s) := by
    intro s hsrest
    obtain ⟨b, t, rfl, hb, ht⟩ := hrest s hsrest
    have hsmem : (b :: t) ∈ segments names := by
      rw [hseg]
      exact List.mem_append.mpr (Or.inr hsrest)
    have hsb : isStickyHeader b = true :=
      hbs b (hmemnames _ hsmem b (List.mem_cons_self b t)) hb
    rw [sortSection_sticky_head hsb ht]
    exact ⟨b, smartSortRegular t, rfl, hb, breakerFree_smartSortRegular ht⟩
  rw [sortPagesSmartly_eq_segments, hseg]
  have hheadmap : ∀ s2 ∈ rest.map sortSection, BreakerHeaded s2 := by
    intro s2 hs2
    obtain ⟨s, hsrest, rfl⟩ := List.mem_map.mp hs2
    exact hmap_headed s hsrest
  by_cases hue : u.isEmpty
  · rw [if_pos hue, List.nil_append]
    exact segments_flatten_headed _ hheadmap
  · rw [if_neg hue]
    have hune : u ≠ [] := fun he => by rw [he] at hue; exact hue rfl
    rw [show ([u] ++ rest).map sortSection = sortSection u :: rest.map sortSection from rfl,
      List.flatten_cons, sortSection_breakerFree hu]
    exact segments_free_then_headed _ _ (breakerFree_smartSortRegular hu)
      (smartSortRegular_ne_nil hune) hheadmap

/-! Claim theorems. -/

/-- Claim C1 (code bug evaluation): at the failing input
["Card", "Card", "Price Card"] the categorize loop of smartSortRegular
deduplicates the parent label "Card" (the `roots.includes` guard), so the
output ["Card", "Price Card"] drops one occurrence and is not a permutation
of the input, contradicting the spec's permutation invariant. -/
theorem C1_duplicate_drop_eval :
    sortPagesSmartly [strCU "Card", strCU "Card", strCU "Price Card"] =
      [strCU "Card", strCU "Price Card"] ∧
    ¬ List.Perm (sortPagesSmartly [strCU "Card", strCU "Card", strCU "Price Card"])
        [strCU "Card", strCU "Card", strCU "Price Card"] := by
  constructor
  · decide
  · decide

/-- Claim C2 (counterexample): on ["zebra", "ALPHA", "beta"] the code does
not return ["ALPHA", "beta", "zebra"]: "zebra" precedes the first breaker
and is flushed as its own leaderless segment, so it stays first. -/
theorem C2_cex :
    sortPagesSmartly [strCU "zebra", strCU "ALPHA", strCU "beta"] ≠
      [strCU "ALPHA", strCU "beta", strCU "zebra"] := by
  decide

/-- Claim C2 (amended): the input splits into two segments, ["zebra"]
(leaderless) and ["ALPHA", "beta"] (sticky header first), and the output is
["zebra", "ALPHA", "beta"]. -/
theorem C2_amended_eval :
    sortPagesSmartly [strCU "zebra", strCU "ALPHA", strCU "beta"] =
      [strCU "zebra", strCU "ALPHA", strCU "beta"] ∧
    segments [strCU "zebra", strCU "ALPHA", strCU "beta"] =
      [[strCU "zebra"], [strCU "ALPHA", strCU "beta"]] := by
  constructor
  · decide
  · decide

/-- Claim C3 (counterexample): the divider "--- " (hyphens plus a trailing
space) starts the single segment of ["--- ", ""], yet the output of that
segment is ["", "--- "]: the divider is grouped as a child of the empty
label and is not the first element of the segment it starts. -/
theorem C3_cex :
    isSequenceBreaker (strCU "--- ") = true ∧
    segments [strCU "--- ", strCU ""] = [[strCU "--- ", strCU ""]] ∧
    sortPagesSmartly [strCU "--- ", strCU ""] = [strCU "", strCU "--- "] ∧
    strCU "" ≠ strCU "--- " := by
  refine ⟨by decide, by decide, by decide, by decide⟩

/-- Claim C3 (amended): a segment opened by a *sticky-header* breaker always
keeps that breaker as its first output element (dividers may be reordered by
the regular smart sort); content before the first breaker still forms its
own leaderless segment. -/
theorem C3_amended_sticky_first :
    ∀ (names : List Str) (s : Str) (t : List Str),
      (s :: t) ∈ segments names → isStickyHeader s = true →
      sortSection (s :: t) = s :: smartSortRegular t := by
  intro names s t hmem hs
  have hwf := (segments_wf hmem).2
  exact sortSection_sticky_head hs (fun x hx => hwf x (by simpa using hx))

/-- Witness for the amended C3 at a concrete sticky-headed segment. -/
theorem C3_witness :
    ((strCU "ALPHA" :: [strCU "beta"]) ∈ segments [strCU "ALPHA", strCU "beta"]) ∧
    isStickyHeader (strCU "ALPHA") = true ∧
    sortSection (strCU "ALPHA" :: [strCU "beta"]) =
      strCU "ALPHA" :: smartSortRegular [strCU "beta"] :=
  ⟨by decide, by decide,
    C3_amended_sticky_first [strCU "ALPHA", strCU "beta"] (strCU "ALPHA")
      [strCU "beta"] (by decide) (by decide)⟩

/-- Claim C4 (counterexample): in the one-segment input
["---", "b", "x ---"] the divider "---" is assigned the child "x ---"
(because "x ---" ends with " " + "---"), so a divider does participate in
parent/child grouping, and the output places the child directly after the
divider, ahead of the alphabetically earlier orphan "b". -/
theorem C4_cex :
    isDivider (strCU "---") = true ∧
    strCU "---" ∈ parentsOf [strCU "---", strCU "b", strCU "x ---"] ∧
    childrenOf [strCU "---", strCU "b", strCU "x ---"] (strCU "---") =
      [strCU "x ---"] ∧
    segments [strCU "---", strCU "b", strCU "x ---"] =
      [[strCU "---", strCU "b", strCU "x ---"]] ∧
    sortPagesSmartly [strCU "---", strCU "b", strCU "x ---"] =
      [strCU "---", strCU "x ---", strCU "b"] := by
  refine ⟨by decide, by decide, by decide, by decide, by decide⟩

/-- Claim C4 (amended): a divider takes part in grouping like any regular
item: it can be assigned children (root "---" above), and it can itself be
bound as a child of another label — "--- " ends with " " + "" so it becomes
a child of the empty label and is emitted after it. -/
theorem C4_amended_eval :
    relOf [strCU "---", strCU "b", strCU "x ---"] (strCU "x ---") =
      some (strCU "---") ∧
    relOf [strCU "--- ", strCU ""] (strCU "--- ") = some (strCU "") ∧
    sortPagesSmartly [strCU "--- ", strCU ""] = [strCU "", strCU "--- "] := by
  refine ⟨by decide, by decide, by decide⟩

/-- Claim C5 (code bug evaluation): the label made of the surrogate pair
U+D83D U+DD25 (the fire emoji U+1F525) is not classified as a sticky header
or breaker: the emoji regex is tested against `trimmed[0]` — the lone high
surrogate — which none of its alternatives can match. -/
theorem C5_eval :
    jsTrim fireLabel = fireLabel ∧
    isStickyHeader fireLabel = false ∧
    isSequenceBreaker fireLabel = false := by
  refine ⟨by decide, by decide, by decide⟩

/-- Claim C6 (counterexample): matching uses the raw label, not the trimmed
one: the trimmed form of "Price Card " ends with " Card", yet the scan
assigns it no parent in ["Price Card ", "Card"] because the raw string ends
with "Card " instead. -/
theorem C6_cex :
    (0x20 :: strCU "Card") <:+ jsTrim (strCU "Price Card ") ∧
    relOf [strCU "Price Card ", strCU "Card"] (strCU "Price Card ") = none := by
  constructor
  · decide
  · decide

/-- Claim C6 (amended): candidate-parent matching operates on raw forms: an
item X is assigned a parent if and only if some distinct item P of its
segment satisfies "raw X ends with the literal ' ' + raw P". -/
theorem C6_amended_raw_matching :
    ∀ (items : List Str) (X : Str),
      (relOf items X).isSome = true ↔
        ∃ P ∈ items, P ≠ X ∧ (0x20 :: P) <:+ X := by
  intro items X
  rw [relOf, bestParentFor_isSome_iff]
  constructor
  · rintro ⟨p, hp, hc⟩
    exact ⟨p, mem_dedupFirst.mp hp, hc.1, hc.2⟩
  · rintro ⟨p, hp, hne, hsuf⟩
    exact ⟨p, mem_dedupFirst.mpr hp, hne, hsuf⟩

/-- Claim C7: on ["Card", "Space Card", "Deep Space Card"] both longer
labels bind to the shortest suffix parent "Card" (even though "Space Card"
is also a valid suffix of "Deep Space Card"), and the output is
["Card", "Deep Space Card", "Space Card"]. -/
theorem C7_example :
    sortPagesSmartly [strCU "Card", strCU "Space Card", strCU "Deep Space Card"] =
      [strCU "Card", strCU "Deep Space Card", strCU "Space Card"] ∧
    relOf [strCU "Card", strCU "Space Card", strCU "Deep Space Card"]
        (strCU "Deep Space Card") = some (strCU "Card") ∧
    relOf [strCU "Card", strCU "Space Card", strCU "Deep Space Card"]
        (strCU "Space Card") = some (strCU "Card") ∧
    IsCand (strCU "Deep Space Card") (strCU "Space Card") := by
  refine ⟨by decide, by decide, by decide, by decide⟩

/-- Claim C8 (counterexample): sortPagesSmartly is not idempotent.  On
["--- ", "", "zebra ", "apple"] the first pass outputs
["", "--- ", "zebra ", "apple"] (the divider is a child of ""), and the
second pass splits a new segment at the divider, separating "zebra " from
its former parent "", after which plain sorting moves "apple" ahead. -/
theorem C8_cex :
    sortPagesSmartly (sortPagesSmartly
        [strCU "--- ", strCU "", strCU "zebra ", strCU "apple"]) ≠
      sortPagesSmartly [strCU "--- ", strCU "", strCU "zebra ", strCU "apple"] := by
  decide

/-- Claim C8 (amended): sortPagesSmartly is idempotent on inputs that
contain no divider labels.  Without dividers every breaker is a sticky
header, which is always emitted first in its section, so re-scanning the
output reproduces the same segments and each section sorter is idempotent. -/
theorem C8_amended_idem_of_dividerFree :
    ∀ names : List Str, DividerFree names →
      sortPagesSmartly (sortPagesSmartly names) = sortPagesSmartly names := by
  intro names hdf
  conv_lhs => rw [sortPagesSmartly_eq_segments]
  rw [segments_sortPagesSmartly_of_dividerFree hdf, List.map_map,
    List.map_congr_left (fun s _ => by
      simp only [Function.comp_apply]
      exact sortSection_idem s),
    ← sortPagesSmartly_eq_segments]

/-- Witness for the amended C8 on a concrete divider-free input. -/
theorem C8_witness :
    DividerFree [strCU "zebra", strCU "ALPHA", strCU "beta"] ∧
    sortPagesSmartly (sortPagesSmartly [strCU "zebra", strCU "ALPHA", strCU "beta"]) =
      sortPagesSmartly [strCU "zebra", strCU "ALPHA", strCU "beta"] :=
  ⟨by decide, C8_amended_idem_of_dividerFree
    [strCU "zebra", strCU "ALPHA", strCU "beta"] (by decide)⟩

/-- Claim C9: any label whose trimmed form starts with the code unit U+00A9,
U+00AE, or one in U+2000-U+3300 is a sticky header, regardless of the rest
of the label. -/
theorem C9_bmp_symbol_sticky :
    ∀ (name : Str) (c : Nat) (rest : Str), jsTrim name = c :: rest →
      (c = 0xA9 ∨ c = 0xAE ∨ (0x2000 ≤ c ∧ c ≤ 0x3300)) →
      isStickyHeader name = true := by
  intro name c rest htrim hc
  simp only [isStickyHeader, htrim]
  have hemoji : emojiRegexTest ((c :: rest).take 1) = true := by
    show emojiRegexTest [c] = true
    have hfirst : (c == 0xA9 || c == 0xAE ||
        decide (0x2000 ≤ c ∧ c ≤ 0x3300)) = true := by
      rcases hc with rfl | rfl | ⟨h1, h2⟩
      · simp
      · simp
      · rw [decide_eq_true ⟨h1, h2⟩, Bool.or_true]
    unfold emojiRegexTest
    rw [hfirst]
    simp
  rw [hemoji]
  simp

/-- Witness for C9: a label starting with an em dash (U+2014) followed by a
lowercase letter is sticky. -/
theorem C9_witness :
    jsTrim [0x2014, 0x6E] = 0x2014 :: [0x6E] ∧
    (0x2014 = 0xA9 ∨ 0x2014 = 0xAE ∨ (0x2000 ≤ 0x2014 ∧ 0x2014 ≤ 0x3300)) ∧
    isStickyHeader [0x2014, 0x6E] = true :=
  ⟨by decide, by decide,
    C9_bmp_symbol_sticky [0x2014, 0x6E] 0x2014 [0x6E] (by decide) (by decide)⟩

/-- Claim C10: the subsequence of breaker labels in the output equals the
subsequence of breaker labels in the input — each segment holds exactly the
one breaker that opened it (or none, for the leaderless first segment), and
segments are emitted in order. -/
theorem C10_breaker_subsequence (names : List Str) :
    (sortPagesSmartly names).filter isSequenceBreaker =
      names.filter isSequenceBreaker := by
  rw [sortPagesSmartly_eq_segments]
  conv_rhs => rw [← segments_flatten names]
  rw [List.filter_flatten, List.filter_flatten, List.map_map]
  refine congrArg List.flatten (List.map_congr_left (fun seg hseg => ?_))
  obtain ⟨hne, hwf⟩ := segments_wf hseg
  have h := filter_breaker_sortSection hne hwf
  simpa [Function.comp] using h
